import Mathlib

/-!
Shallow embedding of the better-auth-waitlist plugin core
(src/src/routes/public.ts, src/routes/admin.ts as concatenated in
src/src/routes/public.ts, and the plugin hooks in src/unnamed/part_003).

The record store is a list of entries; `adapter.findOne` is `List.find?`,
`adapter.count` is `List.length` (with a filter when a `where` clause is
given), `adapter.create` appends, and `adapter.update` maps the patch over
the entries matching the `where` clause.  `Date.now()` is an explicit
`now : Nat` in milliseconds; `crypto.randomUUID()` is an explicit code
parameter (a code supply `Nat → String` for bulk operations).  Fallible
endpoints return `Except WError`.
-/

namespace Waitlist

/-- JS `String.prototype.toLowerCase`, per character (the embedding only
needs it on ASCII emails). -/
def toLowerCase (s : String) : String := ⟨s.data.map Char.toLower⟩

/-- Waitlist entry status, from src/src/types.ts `WaitlistStatus`. -/
inductive WStatus
  | pending
  | approved
  | rejected
  | registered
deriving DecidableEq, Repr

/-- Error kinds, from src/src/error-codes.ts `WAITLIST_ERROR_CODES`. -/
inductive WError
  | EMAIL_ALREADY_IN_WAITLIST
  | WAITLIST_ENTRY_NOT_FOUND
  | NOT_APPROVED
  | INVALID_INVITE_CODE
  | INVITE_CODE_REQUIRED
  | ALREADY_REGISTERED
  | WAITLIST_FULL
  | UNAUTHORIZED_ADMIN_ACTION
deriving DecidableEq, Repr

/-- A waitlist entry, from src/src/types.ts `WaitlistEntry`.
Timestamps are `Nat` milliseconds; optional fields are `Option`. -/
structure Entry where
  id : Nat
  email : String
  status : WStatus
  inviteCode : Option String
  inviteExpiresAt : Option Nat
  position : Option Nat
  referredBy : Option String
  metadata : Option String
  approvedAt : Option Nat
  rejectedAt : Option Nat
  registeredAt : Option Nat
  createdAt : Nat
  updatedAt : Nat
deriving DecidableEq, Repr

/-- The waitlist table. -/
abbrev Store := List Entry

/-- `autoApprove?: boolean | ((email) => boolean)` of `WaitlistOptions`:
absent or `false` is `off`, `true` is `always`, a function is `pred`. -/
inductive AutoApprove
  | off
  | always
  | pred (f : String → Bool)

/-- Plugin options, from src/src/types.ts `WaitlistOptions` (the fields the
core logic reads; callbacks only notify and are omitted). -/
structure Options where
  enabled : Bool := true
  requireInviteCode : Bool := false
  inviteCodeExpiration : Option Nat := none
  maxWaitlistSize : Option Nat := none
  skipAnonymous : Bool := false
  autoApprove : AutoApprove := .off

/-- `decideOnJoin`: the auto-approve decision made inside `joinWaitlist`. -/
def AutoApprove.decide (a : AutoApprove) (email : String) : Bool :=
  match a with
  | .off => false
  | .always => true
  | .pred f => f email

/-- `adapter.findOne({model:"waitlist", where:[{field:"email", value:e}]})`. -/
def findByEmail (st : Store) (e : String) : Option Entry :=
  st.find? (fun x => decide (x.email = e))

/-- `adapter.findOne` with `where: [{inviteCode = c}, {status = "approved"}]`. -/
def findByCode (st : Store) (c : String) : Option Entry :=
  st.find? (fun x => decide (x.inviteCode = some c ∧ x.status = .approved))

/-- `adapter.update` with a `where` on the email field: apply the patch to
every entry whose email matches (emails are unique in practice). -/
def updateByEmail (st : Store) (e : String) (patch : Entry → Entry) : Store :=
  st.map (fun x => if x.email = e then patch x else x)

/-- `adapter.update` with a `where` on the id field. -/
def updateById (st : Store) (i : Nat) (patch : Entry → Entry) : Store :=
  st.map (fun x => if x.id = i then patch x else x)

/-- `POST /waitlist/join` handler (src/src/routes/public.ts, `joinWaitlist`).
`newId` stands for the store-assigned id, `code` for `crypto.randomUUID()`,
`now` for `Date.now()`. Returns the new store and the created entry. -/
def joinWaitlist (o : Options) (now newId : Nat) (code : String)
    (email : String) (referredBy : Option String) (metadata : Option String)
    (st : Store) : Except WError (Store × Entry) :=
  let normalizedEmail := toLowerCase email
  match findByEmail st normalizedEmail with
  | some _ => .error .EMAIL_ALREADY_IN_WAITLIST
  | none =>
    -- `if (options.maxWaitlistSize)`: JS truthiness, 0 disables the check
    let full : Bool :=
      match o.maxWaitlistSize with
      | some m => decide (m ≠ 0 ∧ st.length ≥ m)
      | none => false
    if full then
      .error .WAITLIST_FULL
    else
      let totalCount := st.length
      let shouldApprove := o.autoApprove.decide normalizedEmail
      let status : WStatus := if shouldApprove then .approved else .pending
      let expSeconds := o.inviteCodeExpiration.getD 172800
      let inviteCode : Option String := if shouldApprove then some code else none
      let inviteExpiresAt : Option Nat :=
        if shouldApprove then some (now + expSeconds * 1000) else none
      let approvedAt : Option Nat := if shouldApprove then some now else none
      let entry : Entry :=
        { id := newId
          email := normalizedEmail
          status := status
          inviteCode := inviteCode
          inviteExpiresAt := inviteExpiresAt
          position := some (totalCount + 1)
          referredBy := referredBy
          metadata := metadata
          approvedAt := approvedAt
          rejectedAt := none
          registeredAt := none
          createdAt := now
          updatedAt := now }
      .ok (st ++ [entry], entry)

/-- `GET /waitlist/status` handler (src/src/routes/public.ts,
`getWaitlistStatus`): report status and position for an email. -/
def getWaitlistStatus (email : String) (st : Store) :
    Except WError (WStatus × Option Nat) :=
  match findByEmail st (toLowerCase email) with
  | none => .error .WAITLIST_ENTRY_NOT_FOUND
  | some entry => .ok (entry.status, entry.position)

/-- Result of `POST /waitlist/verify-invite`. -/
structure VerifyResult where
  valid : Bool
  email : Option String
deriving DecidableEq, Repr

/-- `POST /waitlist/verify-invite` handler (src/src/routes/public.ts,
`verifyInviteCode`). Never errors. -/
def verifyInviteCode (now : Nat) (code : String) (st : Store) : VerifyResult :=
  match findByCode st code with
  | none => ⟨false, none⟩
  | some entry =>
    match entry.inviteExpiresAt with
    | some t => if t < now then ⟨false, none⟩ else ⟨true, some entry.email⟩
    | none => ⟨true, some entry.email⟩

/-- The update written by `approveEntry` (and by both `bulkApprove`
branches): status `approved`, fresh code, expiry `now + TTL`, approvedAt. -/
def approvePatch (now ttlMs : Nat) (code : String) (e : Entry) : Entry :=
  { e with
    status := .approved
    inviteCode := some code
    inviteExpiresAt := some (now + ttlMs)
    approvedAt := some now
    updatedAt := now }

/-- `POST /waitlist/approve` handler (admin routes, `approveEntry`). -/
def approveEntry (o : Options) (now : Nat) (code : String) (email : String)
    (st : Store) : Except WError (Store × Entry) :=
  let normalizedEmail := toLowerCase email
  match findByEmail st normalizedEmail with
  | none => .error .WAITLIST_ENTRY_NOT_FOUND
  | some entry =>
    if entry.status = .registered then .error .ALREADY_REGISTERED
    else
      let expSeconds := o.inviteCodeExpiration.getD 172800
      let patch := approvePatch now (expSeconds * 1000) code
      (.ok (updateByEmail st normalizedEmail patch, patch entry))

/-- The update written by `rejectEntry`. -/
def rejectPatch (now : Nat) (e : Entry) : Entry :=
  { e with status := .rejected, rejectedAt := some now, updatedAt := now }

/-- `POST /waitlist/reject` handler (admin routes, `rejectEntry`). There is
no status precondition: any existing entry is set to `rejected`. -/
def rejectEntry (now : Nat) (email : String) (st : Store) :
    Except WError (Store × Entry) :=
  let normalizedEmail := toLowerCase email
  match findByEmail st normalizedEmail with
  | none => .error .WAITLIST_ENTRY_NOT_FOUND
  | some entry =>
    .ok (updateByEmail st normalizedEmail (rejectPatch now), rejectPatch now entry)

/-- The `user.create.after` database hook (src/unnamed/part_003): mark the
waitlist entry for a just-registered email as `registered` (no-op when no
entry exists). -/
def markRegistered (now : Nat) (email : String) (st : Store) : Store :=
  let e := toLowerCase email
  match findByEmail st e with
  | none => st
  | some _ =>
    updateByEmail st e (fun x =>
      { x with status := .registered, registeredAt := some now, updatedAt := now })

/-- Outcome of the pre-processing gate (`hooks.before` handler). -/
inductive GateResult
  | allow
  | deny (err : WError)
deriving DecidableEq, Repr

/-- JS `a || b` over possibly-absent strings: an empty string is falsy and
falls through to `b`. Models `ctx.body?.inviteCode || headers.get(...)`. -/
def firstTruthy (a b : Option String) : Option String :=
  match a with
  | some s => if s = "" then b else some s
  | none => b

/-- The `hooks.before` handler of the plugin (src/unnamed/part_003).
`users` is the set of emails of already-registered accounts
(`internalAdapter.findUserByEmail`, queried with the lowercased email);
`bodyEmail` is `ctx.body?.email`, `bodyCode` is `ctx.body?.inviteCode`,
`headerCode` is `ctx.headers?.get("x-invite-code")`. A JS empty string is
falsy, so `some ""` behaves like absence at each truthiness test. -/
def gateBefore (o : Options) (now : Nat) (bodyEmail bodyCode headerCode : Option String)
    (users : List String) (st : Store) : GateResult :=
  -- `if (email)` then the existing-user check: a login is let through
  let emailTruthy : Option String :=
    match bodyEmail with
    | some e => if e = "" then none else some e
    | none => none
  let isExistingUser : Bool :=
    match emailTruthy with
    | some e => users.contains (toLowerCase e)
    | none => false
  if isExistingUser then .allow
  else if o.requireInviteCode then
    match firstTruthy bodyCode headerCode with
    | none => .deny .INVITE_CODE_REQUIRED
    | some code =>
      if code = "" then .deny .INVITE_CODE_REQUIRED
      else
        match findByCode st code with
        | none => .deny .INVALID_INVITE_CODE
        | some entry =>
          match entry.inviteExpiresAt with
          | some t => if t < now then .deny .INVALID_INVITE_CODE else .allow
          | none => .allow
  else
    match emailTruthy with
    | some email =>
      match findByEmail st (toLowerCase email) with
      | some entry => if entry.status = .approved then .allow else .deny .NOT_APPROVED
      | none => .deny .NOT_APPROVED
    | none => .allow

/-- The per-email loop of `bulkApprove` (`if (emails && emails.length > 0)`
branch): skip an email silently unless its entry's status is exactly
`pending`, otherwise apply the approve patch. `codes i` stands for the
`crypto.randomUUID()` drawn at the i-th approval. -/
def bulkByEmails (now ttlMs : Nat) (codes : Nat → String) (idx : Nat)
    (emails : List String) (st : Store) : Store × List Entry :=
  match emails with
  | [] => (st, [])
  | email :: rest =>
    let ne := toLowerCase email
    match findByEmail st ne with
    | none => bulkByEmails now ttlMs codes idx rest st
    | some entry =>
      if entry.status = .pending then
        let patch := approvePatch now ttlMs (codes idx)
        let st1 := updateByEmail st ne patch
        let out := bulkByEmails now ttlMs codes (idx + 1) rest st1
        (out.1, patch entry :: out.2)
      else bulkByEmails now ttlMs codes idx rest st

/-- The per-entry loop of the count branch of `bulkApprove`: update each
selected entry by id with the approve patch, left to right. -/
def applyApprovals (now ttlMs : Nat) (codes : Nat → String) (idx : Nat)
    (sel : List Entry) (st : Store) : Store × List Entry :=
  match sel with
  | [] => (st, [])
  | e :: rest =>
    let patch := approvePatch now ttlMs (codes idx)
    let st1 := updateById st e.id patch
    let out := applyApprovals now ttlMs codes (idx + 1) rest st1
    (out.1, patch e :: out.2)

/-- The `sortBy: position asc` order. An absent position sorts as 0. -/
def posLE (a b : Entry) : Prop := a.position.getD 0 ≤ b.position.getD 0

instance : DecidableRel posLE := fun a b => Nat.decLe (a.position.getD 0) (b.position.getD 0)

instance : IsTotal Entry posLE := ⟨fun a b => Nat.le_total (a.position.getD 0) (b.position.getD 0)⟩

instance : IsTrans Entry posLE := ⟨fun _ _ _ hab hbc => Nat.le_trans hab hbc⟩

/-- `adapter.findMany({where: status = "pending", sortBy: position asc,
limit: count})`: the pending entries sorted by position ascending, first
`count` of them. -/
def pendingByPosition (st : Store) : List Entry :=
  List.insertionSort posLE (st.filter (fun e => decide (e.status = .pending)))

/-- `POST /waitlist/bulk-approve` handler (admin routes, `bulkApprove`).
Returns the new store and the list of approved entries. The emails branch
runs when `emails` is present and non-empty; otherwise, the count branch
runs when `count` is present and non-zero (JS truthiness). -/
def bulkApprove (o : Options) (now : Nat) (codes : Nat → String)
    (emails : Option (List String)) (count : Option Nat) (st : Store) :
    Store × List Entry :=
  let ttlMs := (o.inviteCodeExpiration.getD 172800) * 1000
  match emails with
  | some es =>
    if es ≠ [] then bulkByEmails now ttlMs codes 0 es st
    else
      match count with
      | some n => if n ≠ 0 then applyApprovals now ttlMs codes 0 ((pendingByPosition st).take n) st else (st, [])
      | none => (st, [])
  | none =>
    match count with
    | some n => if n ≠ 0 then applyApprovals now ttlMs codes 0 ((pendingByPosition st).take n) st else (st, [])
    | none => (st, [])

/-- The store left by a fallible endpoint: an `APIError` throw leaves the
store untouched. -/
def afterStore (st : Store) (r : Except WError (Store × Entry)) : Store :=
  match r with
  | .ok (st1, _) => st1
  | .error _ => st

/-- One invocation of a core mutating operation, with all its
nondeterministic inputs (clock, fresh ids, fresh codes) made explicit. -/
inductive CoreOp
  | join (now newId : Nat) (code email : String) (referredBy metadata : Option String)
  | approve (now : Nat) (code email : String)
  | reject (now : Nat) (email : String)
  | bulk (now : Nat) (codes : Nat → String) (emails : Option (List String)) (count : Option Nat)
  | markReg (now : Nat) (email : String)

/-- The store after running one core operation. -/
def applyOp (o : Options) (op : CoreOp) (st : Store) : Store :=
  match op with
  | .join now newId code email rb md => afterStore st (joinWaitlist o now newId code email rb md st)
  | .approve now code email => afterStore st (approveEntry o now code email st)
  | .reject now email => afterStore st (rejectEntry now email st)
  | .bulk now codes emails count => (bulkApprove o now codes emails count st).1
  | .markReg now email => markRegistered now email st

/-! ### Helper lemmas -/

lemma find?_pred_congr {α} (p q : α → Bool) (l : List α) (h : ∀ x, p x = q x) :
    l.find? p = l.find? q := by
  induction l with
  | nil => rfl
  | cons a t ih => simp only [List.find?, h a, ih]

lemma find?_eq_some_of_unique {α} (p : α → Bool) (l : List α) (x : α) (hx : x ∈ l)
    (hpx : p x = true) (huniq : ∀ y ∈ l, p y = true → y = x) : l.find? p = some x := by
  induction l with
  | nil => cases hx
  | cons a t ih =>
    by_cases h : p a = true
    · have ha : a = x := huniq a (List.mem_cons_self a t) h
      subst ha
      simp [List.find?, h]
    · have hxa : x ≠ a := fun he => h (he ▸ hpx)
      have hx' : x ∈ t := by
        rcases List.mem_cons.mp hx with h1 | h1
        · exact absurd h1 hxa
        · exact h1
      have h' : p a = false := Bool.eq_false_iff.mpr h
      simp only [List.find?, h']
      exact ih hx' (fun y hy hpy => huniq y (List.mem_cons_of_mem a hy) hpy)

@[simp] lemma approvePatch_id (now ttl : Nat) (c : String) (e : Entry) :
    (approvePatch now ttl c e).id = e.id := rfl

@[simp] lemma approvePatch_email (now ttl : Nat) (c : String) (e : Entry) :
    (approvePatch now ttl c e).email = e.email := rfl

@[simp] lemma approvePatch_position (now ttl : Nat) (c : String) (e : Entry) :
    (approvePatch now ttl c e).position = e.position := rfl

@[simp] lemma approvePatch_status (now ttl : Nat) (c : String) (e : Entry) :
    (approvePatch now ttl c e).status = .approved := rfl

@[simp] lemma rejectPatch_id (now : Nat) (e : Entry) : (rejectPatch now e).id = e.id := rfl

@[simp] lemma rejectPatch_email (now : Nat) (e : Entry) :
    (rejectPatch now e).email = e.email := rfl

@[simp] lemma rejectPatch_position (now : Nat) (e : Entry) :
    (rejectPatch now e).position = e.position := rfl

@[simp] lemma rejectPatch_status (now : Nat) (e : Entry) :
    (rejectPatch now e).status = .rejected := rfl

/-- Mapping a field that a patch does not change commutes with
`updateByEmail`. -/
lemma updateByEmail_map_eq {β} (st : Store) (em : String) (patch : Entry → Entry)
    (g : Entry → β) (hg : ∀ x, g (patch x) = g x) :
    (updateByEmail st em patch).map g = st.map g := by
  unfold updateByEmail
  rw [List.map_map]
  apply List.map_congr_left
  intro x _
  by_cases h : x.email = em <;> simp [h, hg]

lemma updateById_map_eq {β} (st : Store) (i : Nat) (patch : Entry → Entry)
    (g : Entry → β) (hg : ∀ x, g (patch x) = g x) :
    (updateById st i patch).map g = st.map g := by
  unfold updateById
  rw [List.map_map]
  apply List.map_congr_left
  intro x _
  by_cases h : x.id = i <;> simp [h, hg]

/-- `findByEmail` after `updateByEmail` with an email-preserving patch. -/
lemma findByEmail_updateByEmail (st : Store) (em e' : String) (patch : Entry → Entry)
    (hp : ∀ x, (patch x).email = x.email) :
    findByEmail (updateByEmail st em patch) e' =
      (findByEmail st e').map (fun x => if x.email = em then patch x else x) := by
  unfold findByEmail updateByEmail
  rw [List.find?_map]
  congr 1
  apply find?_pred_congr
  intro x
  by_cases h : x.email = em <;> simp [Function.comp, h, hp]

lemma findByEmail_some {st : Store} {e : String} {x : Entry}
    (h : findByEmail st e = some x) : x ∈ st ∧ x.email = e := by
  refine ⟨List.mem_of_find?_eq_some h, ?_⟩
  have := List.find?_some h
  simpa using this

lemma findByEmail_eq_none {st : Store} {e : String} :
    findByEmail st e = none ↔ ∀ x ∈ st, x.email ≠ e := by
  unfold findByEmail
  rw [List.find?_eq_none]
  simp

lemma findByCode_some {st : Store} {c : String} {x : Entry}
    (h : findByCode st c = some x) :
    x ∈ st ∧ x.inviteCode = some c ∧ x.status = .approved := by
  refine ⟨List.mem_of_find?_eq_some h, ?_⟩
  have := List.find?_some h
  simpa using this

/-! ### C3: approve effect and ALREADY_REGISTERED precondition -/

/-- C3: for an existing entry, `approve(email)` with entry status not equal
to `registered` succeeds and writes exactly the approve patch: status
`approved`, the freshly generated invite code, `inviteExpiresAt` equal to
the decision time plus the configured `inviteCodeExpiration` (default
172800 seconds, stored in milliseconds), and `approvedAt` set; `approve` on
an entry whose status is `registered` fails with `ALREADY_REGISTERED` and
leaves the store unchanged. -/
theorem approveEntry_effect (o : Options) (now : Nat) (code email : String)
    (st : Store) (en : Entry)
    (hfound : findByEmail st (toLowerCase email) = some en) :
    (en.status ≠ .registered →
      approveEntry o now code email st =
        .ok (updateByEmail st (toLowerCase email)
              (approvePatch now ((o.inviteCodeExpiration.getD 172800) * 1000) code),
            approvePatch now ((o.inviteCodeExpiration.getD 172800) * 1000) code en) ∧
      (approvePatch now ((o.inviteCodeExpiration.getD 172800) * 1000) code en).status
          = .approved ∧
      (approvePatch now ((o.inviteCodeExpiration.getD 172800) * 1000) code en).inviteCode
          = some code ∧
      (approvePatch now ((o.inviteCodeExpiration.getD 172800) * 1000) code en).inviteExpiresAt
          = some (now + (o.inviteCodeExpiration.getD 172800) * 1000) ∧
      (approvePatch now ((o.inviteCodeExpiration.getD 172800) * 1000) code en).approvedAt
          = some now ∧
      findByEmail
          (updateByEmail st (toLowerCase email)
            (approvePatch now ((o.inviteCodeExpiration.getD 172800) * 1000) code))
          (toLowerCase email)
        = some (approvePatch now ((o.inviteCodeExpiration.getD 172800) * 1000) code en)) ∧
    (en.status = .registered →
      approveEntry o now code email st = .error .ALREADY_REGISTERED ∧
      afterStore st (approveEntry o now code email st) = st) := by
  constructor
  · intro hne
    have hdc := findByEmail_some hfound
    refine ⟨?_, rfl, rfl, rfl, rfl, ?_⟩
    · simp [approveEntry, hfound, hne]
    · rw [findByEmail_updateByEmail st (toLowerCase email) (toLowerCase email)
        (approvePatch now ((o.inviteCodeExpiration.getD 172800) * 1000) code)
        (fun x => rfl), hfound]
      simp [hdc.2]
  · intro hreg
    have h1 : approveEntry o now code email st = .error .ALREADY_REGISTERED := by
      simp [approveEntry, hfound, hreg]
    exact ⟨h1, by rw [h1]; rfl⟩

def c3Entry : Entry :=
  ⟨1, "u@x.com", .pending, none, none, some 1, none, none, none, none, none, 0, 0⟩

def c3Store : Store := [c3Entry]

/-- Witness for C3 at a concrete pending entry. -/
theorem approveEntry_effect_witness :
    findByEmail c3Store (toLowerCase "u@x.com") = some c3Entry ∧
    c3Entry.status ≠ WStatus.registered ∧
    approveEntry {} 7 "K" "u@x.com" c3Store =
      .ok (updateByEmail c3Store (toLowerCase "u@x.com") (approvePatch 7 172800000 "K"),
          approvePatch 7 172800000 "K" c3Entry) :=
  ⟨by decide, by decide,
    ((approveEntry_effect {} 7 "K" "u@x.com" c3Store c3Entry (by decide)).1 (by decide)).1⟩

/-! ### C8: reject is idempotent in effect -/

/-- C8: after a successful `reject`, the rejected entry has status
`rejected`, and calling `reject` again for the same email does not error:
it succeeds and leaves every entry status as it was after the first call. -/
theorem rejectEntry_idempotent (now now2 : Nat) (email : String)
    (st st1 : Store) (u1 : Entry)
    (h1 : rejectEntry now email st = .ok (st1, u1)) :
    u1.status = .rejected ∧
    rejectEntry now2 email st1 =
      .ok (updateByEmail st1 (toLowerCase email) (rejectPatch now2),
          rejectPatch now2 u1) ∧
    (updateByEmail st1 (toLowerCase email) (rejectPatch now2)).map (fun e => e.status)
      = st1.map (fun e => e.status) := by
  cases hf : findByEmail st (toLowerCase email) with
  | none => simp [rejectEntry, hf] at h1
  | some en =>
    simp only [rejectEntry, hf] at h1
    have hdc := findByEmail_some hf
    obtain ⟨hst1, hu1⟩ : updateByEmail st (toLowerCase email) (rejectPatch now) = st1 ∧
        rejectPatch now en = u1 := by
      simpa using h1
    have hstat : ∀ x ∈ st1, x.email = toLowerCase email → x.status = .rejected := by
      intro x hx hxe
      rw [← hst1] at hx
      unfold updateByEmail at hx
      rcases List.mem_map.mp hx with ⟨y, _, hxy⟩
      by_cases hy : y.email = toLowerCase email
      · rw [if_pos hy] at hxy
        rw [← hxy]
        rfl
      · rw [if_neg hy] at hxy
        rw [← hxy] at hxe
        exact absurd hxe hy
    have hf1 : findByEmail st1 (toLowerCase email) = some (rejectPatch now en) := by
      rw [← hst1,
        findByEmail_updateByEmail st (toLowerCase email) (toLowerCase email)
          (rejectPatch now) (fun x => rfl), hf]
      simp [hdc.2]
    refine ⟨by rw [← hu1]; rfl, ?_, ?_⟩
    · simp only [rejectEntry, hf1]
      rw [hu1]
    · unfold updateByEmail
      rw [List.map_map]
      apply List.map_congr_left
      intro x hx
      by_cases hxe : x.email = toLowerCase email
      · simp only [Function.comp, if_pos hxe]
        rw [hstat x hx hxe]
        rfl
      · simp only [Function.comp, if_neg hxe]

def c8Entry : Entry :=
  ⟨1, "r@x.com", .rejected, none, none, some 1, none, none, none, some 0, none, 0, 0⟩

def c8Store : Store := [c8Entry]

/-- Witness for C8: re-rejecting an already-rejected concrete entry. -/
theorem rejectEntry_idempotent_witness :
    rejectEntry 1 "r@x.com" c8Store = .ok ([rejectPatch 1 c8Entry], rejectPatch 1 c8Entry) ∧
    rejectEntry 2 "r@x.com" [rejectPatch 1 c8Entry] =
      .ok (updateByEmail [rejectPatch 1 c8Entry] (toLowerCase "r@x.com") (rejectPatch 2),
          rejectPatch 2 (rejectPatch 1 c8Entry)) :=
  ⟨by rfl,
    (rejectEntry_idempotent 1 2 "r@x.com" c8Store [rejectPatch 1 c8Entry]
      (rejectPatch 1 c8Entry) (by rfl)).2.1⟩

/-! ### C6: joins are case-insensitively unique -/

/-- C6: emails are normalized to lowercase, so after a successful `join`
for `e1`, a `join` for any `e2` differing only by case is denied with
`EMAIL_ALREADY_IN_WAITLIST` and the store is left unchanged (no second
entry is created). -/
theorem joinWaitlist_case_insensitive (o : Options) (now newId : Nat)
    (code e1 e2 : String) (rb md : Option String) (st st1 : Store) (en : Entry)
    (hcase : toLowerCase e1 = toLowerCase e2)
    (h1 : joinWaitlist o now newId code e1 rb md st = .ok (st1, en)) :
    ∀ now2 newId2 code2 rb2 md2,
      joinWaitlist o now2 newId2 code2 e2 rb2 md2 st1 =
        .error .EMAIL_ALREADY_IN_WAITLIST ∧
      afterStore st1 (joinWaitlist o now2 newId2 code2 e2 rb2 md2 st1) = st1 := by
  intro now2 newId2 code2 rb2 md2
  cases hf : findByEmail st (toLowerCase e1) with
  | some x => simp [joinWaitlist, hf] at h1
  | none =>
    simp only [joinWaitlist, hf] at h1
    split at h1
    · cases h1
    · obtain ⟨hst1, hen⟩ : st ++ [_] = st1 ∧ _ = en := by simpa using h1
      have henmail : en.email = toLowerCase e1 := by rw [← hen]
      have hf2 : findByEmail st1 (toLowerCase e2) = some en := by
        rw [← hcase, ← hst1]
        unfold findByEmail
        rw [List.find?_append]
        rw [show List.find? (fun x => decide (x.email = toLowerCase e1)) st = none from hf]
        rw [Option.none_or]
        simp [List.find?, henmail]
        exact hen
      have herr : joinWaitlist o now2 newId2 code2 e2 rb2 md2 st1 =
          .error .EMAIL_ALREADY_IN_WAITLIST := by
        simp [joinWaitlist, hf2]
      exact ⟨herr, by rw [herr]; rfl⟩

/-- Witness for C6: `A@x.COM` then `a@x.com` on an empty store. -/
theorem joinWaitlist_case_insensitive_witness :
    toLowerCase "A@x.COM" = toLowerCase "a@x.com" ∧
    joinWaitlist {} 5 1 "c" "A@x.COM" none none [] =
      .ok ([⟨1, "a@x.com", .pending, none, none, some 1, none, none, none, none, none, 5, 5⟩],
          ⟨1, "a@x.com", .pending, none, none, some 1, none, none, none, none, none, 5, 5⟩) ∧
    joinWaitlist {} 6 2 "d" "a@x.com" none none
        [⟨1, "a@x.com", .pending, none, none, some 1, none, none, none, none, none, 5, 5⟩] =
      .error .EMAIL_ALREADY_IN_WAITLIST :=
  ⟨by decide, by rfl,
    (joinWaitlist_case_insensitive {} 5 1 "c" "A@x.COM" "a@x.com" none none []
      [⟨1, "a@x.com", .pending, none, none, some 1, none, none, none, none, none, 5, 5⟩]
      ⟨1, "a@x.com", .pending, none, none, some 1, none, none, none, none, none, 5, 5⟩
      (by decide) (by rfl) 6 2 "d" none none).1⟩

/-! ### C10: the emails branch of bulkApprove shadows the count branch -/

/-- C10: when `bulkApprove` receives a non-empty `emails` list, only the
per-email branch executes and `count` is ignored entirely (the result does
not mention `count`); the count-based selection of pending entries runs
exactly when `emails` is absent or empty. -/
theorem bulkApprove_branch_priority :
    (∀ (o : Options) (now : Nat) (codes : Nat → String) (es : List String)
        (c : Option Nat) (st : Store), es ≠ [] →
      bulkApprove o now codes (some es) c st =
        bulkByEmails now ((o.inviteCodeExpiration.getD 172800) * 1000) codes 0 es st) ∧
    (∀ (o : Options) (now : Nat) (codes : Nat → String)
        (emails : Option (List String)) (c : Option Nat) (st : Store),
      emails = none ∨ emails = some ([] : List String) →
      bulkApprove o now codes emails c st =
        match c with
        | some n =>
          if n ≠ 0 then
            applyApprovals now ((o.inviteCodeExpiration.getD 172800) * 1000) codes 0
              ((pendingByPosition st).take n) st
          else (st, [])
        | none => (st, [])) := by
  constructor
  · intro o now codes es c st hne
    simp [bulkApprove, hne]
  · intro o now codes emails c st h
    rcases h with h | h <;> subst h <;> simp [bulkApprove]

/-- Witness for C10: with a non-empty email list, the count argument does
not affect the result. -/
theorem bulkApprove_branch_priority_witness :
    (["a@x.com"] : List String) ≠ [] ∧
    bulkApprove {} 0 (fun _ => "K") (some ["a@x.com"]) (some 5) [] =
      bulkByEmails 0 172800000 (fun _ => "K") 0 ["a@x.com"] [] :=
  ⟨by decide,
    bulkApprove_branch_priority.1 {} 0 (fun _ => "K") ["a@x.com"] (some 5) [] (by decide)⟩

/-! ### C2: gate with requireInviteCode = false -/

/-- C2: with `requireInviteCode` false, for an attempt that carries a
non-empty email with no already-registered account, the pre-processing gate
denies with `NOT_APPROVED` when the waitlist entry for the lowercased email
is absent or has status `pending`, and admits when its status is exactly
`approved`. -/
theorem gateBefore_requireFalse (o : Options) (now : Nat) (email : String)
    (bodyCode headerCode : Option String) (users : List String) (st : Store)
    (hreq : o.requireInviteCode = false)
    (hne : email ≠ "")
    (husers : toLowerCase email ∉ users) :
    ((findByEmail st (toLowerCase email) = none ∨
        (∃ en, findByEmail st (toLowerCase email) = some en ∧ en.status = .pending)) →
      gateBefore o now (some email) bodyCode headerCode users st = .deny .NOT_APPROVED) ∧
    (∀ en, findByEmail st (toLowerCase email) = some en → en.status = .approved →
      gateBefore o now (some email) bodyCode headerCode users st = .allow) := by
  have hcontains : users.contains (toLowerCase email) = false := by
    simpa using husers
  constructor
  · rintro (hnone | ⟨en, hen, hpend⟩)
    · simp [gateBefore, hne, hcontains, husers, hreq, hnone]
    · simp [gateBefore, hne, hcontains, husers, hreq, hen, hpend]
  · intro en hen happ
    simp [gateBefore, hne, hcontains, husers, hreq, hen, happ]

def c2Pending : Entry :=
  ⟨1, "p@x.com", .pending, none, none, some 1, none, none, none, none, none, 0, 0⟩

def c2Approved : Entry :=
  ⟨2, "p@x.com", .approved, some "OK", none, some 1, none, none, some 0, none, none, 0, 0⟩

/-- Witness for C2: a pending entry is denied `NOT_APPROVED`; after
approval the same attempt is admitted. -/
theorem gateBefore_requireFalse_witness :
    gateBefore {} 0 (some "p@x.com") none none [] [c2Pending] = .deny .NOT_APPROVED ∧
    gateBefore {} 0 (some "p@x.com") none none [] [c2Approved] = .allow :=
  ⟨(gateBefore_requireFalse {} 0 "p@x.com" none none [] [c2Pending]
      (by decide) (by decide) (by decide)).1
    (Or.inr ⟨c2Pending, by decide, by decide⟩),
    (gateBefore_requireFalse {} 0 "p@x.com" none none [] [c2Approved]
      (by decide) (by decide) (by decide)).2 c2Approved (by decide) (by decide)⟩

/-! ### C9: gate with requireInviteCode = true never consults the
attempting email's own entry -/

/-- C9: with `requireInviteCode` true, the gate admits whenever the
presented code (body first, then the dedicated header, JS-truthily) is the
invite code of some `approved`, unexpired entry — regardless of the
waitlist entry of the attempting email, which the handler never looks up:
the store `st` is arbitrary apart from the code's own entry, so the
attempt is admitted even when its own email has no entry or a `pending` or
`rejected` one. -/
theorem gateBefore_requireTrue_any_code (o : Options) (now : Nat)
    (bodyEmail bodyCode headerCode : Option String) (users : List String)
    (st : Store) (code : String) (en : Entry)
    (hreq : o.requireInviteCode = true)
    (husers : ∀ e, bodyEmail = some e → toLowerCase e ∉ users)
    (hcode : firstTruthy bodyCode headerCode = some code)
    (hcne : code ≠ "")
    (hen : en ∈ st) (henc : en.inviteCode = some code) (hens : en.status = .approved)
    (hunexp : ∀ t, en.inviteExpiresAt = some t → ¬ t < now)
    (huniq : ∀ y ∈ st, y.inviteCode = some code → y = en) :
    gateBefore o now bodyEmail bodyCode headerCode users st = .allow := by
  have hfind : findByCode st code = some en := by
    unfold findByCode
    apply find?_eq_some_of_unique _ _ en hen
    · simp [henc, hens]
    · intro y hy hpy
      have h1 : y.inviteCode = some code := by
        have := of_decide_eq_true hpy
        exact this.1
      exact huniq y hy h1
  have hexisting : (match (match bodyEmail with
      | some e => if e = "" then none else some e
      | none => none : Option String) with
    | some e => users.contains (toLowerCase e)
    | none => false) = false := by
    cases bodyEmail with
    | none => rfl
    | some e =>
      by_cases he : e = ""
      · simp [he]
      · have := husers e rfl
        simp [he]
        simpa using this
  cases het : en.inviteExpiresAt with
  | none => simp [gateBefore, hexisting, hreq, hcode, hcne, hfind, het]
  | some t =>
    have hnl : ¬ t < now := hunexp t het
    simp [gateBefore, hexisting, hreq, hcode, hcne, hfind, het, hnl]

def c9Other : Entry :=
  ⟨1, "other@x.com", .approved, some "GOLD", none, some 1, none, none, some 0, none, none, 0, 0⟩

def c9Mine : Entry :=
  ⟨2, "me@x.com", .pending, none, none, some 2, none, none, none, none, none, 0, 0⟩

/-- Witness for C9: an attempt whose own entry is `pending` is admitted
because it presents another entry's valid invite code. -/
theorem gateBefore_requireTrue_any_code_witness :
    c9Mine.status = .pending ∧
    gateBefore { requireInviteCode := true } 0 (some "me@x.com") (some "GOLD") none []
      [c9Other, c9Mine] = .allow :=
  ⟨by decide,
    gateBefore_requireTrue_any_code { requireInviteCode := true } 0 (some "me@x.com")
      (some "GOLD") none [] [c9Other, c9Mine] "GOLD" c9Other
      (by decide) (by intro e he; cases he; decide) (by decide) (by decide)
      (by decide) (by decide) (by decide)
      (by intro t ht; cases ht)
      (by decide)⟩

/-! ### C4: verifyInvite is total and valid exactly for unexpired approved codes -/

/-- C4: `verifyInviteCode` is a total function (it never errors); assuming
invite codes are unique across entries (the schema's unique constraint),
its `valid` flag is true exactly when some entry holds that invite code
with status exactly `approved` and `inviteExpiresAt` not strictly before
`now`; every invalid input yields `{valid:false, email:null}`, and a valid
one yields `{valid:true, email:}` the entry's email. -/
theorem verifyInviteCode_spec (now : Nat) (code : String) (st : Store)
    (huniq : ∀ x ∈ st, ∀ y ∈ st,
      x.inviteCode = some code → y.inviteCode = some code → x = y) :
    ((verifyInviteCode now code st).valid = true ↔
      ∃ en ∈ st, en.inviteCode = some code ∧ en.status = .approved ∧
        ∀ t, en.inviteExpiresAt = some t → ¬ t < now) ∧
    ((verifyInviteCode now code st).valid = false →
      verifyInviteCode now code st = ⟨false, none⟩) ∧
    (∀ en ∈ st, en.inviteCode = some code → en.status = .approved →
      (∀ t, en.inviteExpiresAt = some t → ¬ t < now) →
      verifyInviteCode now code st = ⟨true, some en.email⟩) := by
  have hfalse : (verifyInviteCode now code st).valid = false →
      verifyInviteCode now code st = ⟨false, none⟩ := by
    intro h
    cases hf : findByCode st code with
    | none => simp [verifyInviteCode, hf]
    | some en =>
      cases het : en.inviteExpiresAt with
      | none =>
        exfalso
        simp [verifyInviteCode, hf, het] at h
      | some t =>
        by_cases hlt : t < now
        · simp [verifyInviteCode, hf, het, hlt]
        · exfalso
          simp [verifyInviteCode, hf, het, hlt] at h
  have hpos : ∀ en ∈ st, en.inviteCode = some code → en.status = .approved →
      (∀ t, en.inviteExpiresAt = some t → ¬ t < now) →
      verifyInviteCode now code st = ⟨true, some en.email⟩ := by
    intro en hen henc hens hunexp
    have hf : findByCode st code = some en := by
      unfold findByCode
      apply find?_eq_some_of_unique _ _ en hen
      · simp [henc, hens]
      · intro y hy hpy
        have h1 := of_decide_eq_true hpy
        exact huniq y hy en hen h1.1 henc
    cases het : en.inviteExpiresAt with
    | none => simp [verifyInviteCode, hf, het]
    | some t => simp [verifyInviteCode, hf, het, hunexp t het]
  refine ⟨?_, hfalse, hpos⟩
  constructor
  · intro hvalid
    cases hf : findByCode st code with
    | none =>
      exfalso
      simp [verifyInviteCode, hf] at hvalid
    | some en =>
      have hdc := findByCode_some hf
      refine ⟨en, hdc.1, hdc.2.1, hdc.2.2, ?_⟩
      intro t het
      by_cases hlt : t < now
      · exfalso
        simp [verifyInviteCode, hf, het, hlt] at hvalid
      · exact hlt
  · rintro ⟨en, hen, henc, hens, hunexp⟩
    rw [hpos en hen henc hens hunexp]

def c4Entry : Entry :=
  ⟨1, "v@x.com", .approved, some "XYZ", some 61000, some 1, none, none, some 1000, none, none, 1000, 1000⟩

/-- Witness for C4: a concrete approved entry with code `XYZ` expiring at
61000 ms is valid at 61000 ms. -/
theorem verifyInviteCode_spec_witness :
    c4Entry ∈ [c4Entry] ∧
    verifyInviteCode 61000 "XYZ" [c4Entry] = ⟨true, some "v@x.com"⟩ :=
  ⟨List.mem_singleton.mpr rfl,
    (verifyInviteCode_spec 61000 "XYZ" [c4Entry] (by decide)).2.2 c4Entry
      (List.mem_singleton.mpr rfl) (by decide) (by decide)
      (by intro t ht; cases ht; decide)⟩

/-! ### C5: position = existing count + 1, never reassigned -/

lemma bulkByEmails_fst_map_position (now ttl : Nat) (codes : Nat → String) :
    ∀ (emails : List String) (idx : Nat) (st : Store),
      (bulkByEmails now ttl codes idx emails st).1.map (fun e => e.position)
        = st.map (fun e => e.position) := by
  intro emails
  induction emails with
  | nil => intro idx st; rfl
  | cons email rest ih =>
    intro idx st
    simp only [bulkByEmails]
    cases hf : findByEmail st (toLowerCase email) with
    | none => exact ih idx st
    | some en =>
      by_cases hp : en.status = .pending
      · simp only [if_pos hp]
        rw [ih]
        exact updateByEmail_map_eq st (toLowerCase email) _ _ (fun x => rfl)
      · simp only [if_neg hp]
        exact ih idx st

lemma applyApprovals_fst_map_position (now ttl : Nat) (codes : Nat → String) :
    ∀ (sel : List Entry) (idx : Nat) (st : Store),
      (applyApprovals now ttl codes idx sel st).1.map (fun e => e.position)
        = st.map (fun e => e.position) := by
  intro sel
  induction sel with
  | nil => intro idx st; rfl
  | cons e rest ih =>
    intro idx st
    simp only [applyApprovals]
    rw [ih]
    exact updateById_map_eq st e.id _ _ (fun x => rfl)

lemma bulkApprove_fst_map_position (o : Options) (now : Nat) (codes : Nat → String)
    (emails : Option (List String)) (count : Option Nat) (st : Store) :
    (bulkApprove o now codes emails count st).1.map (fun e => e.position)
      = st.map (fun e => e.position) := by
  unfold bulkApprove
  cases emails with
  | some es =>
    by_cases hne : es ≠ []
    · simp only [if_pos hne]
      exact bulkByEmails_fst_map_position _ _ _ es 0 st
    · simp only [if_neg hne]
      cases count with
      | some n =>
        by_cases hn : n ≠ 0
        · simp only [if_pos hn]
          exact applyApprovals_fst_map_position _ _ _ _ 0 st
        · simp only [if_neg hn]
      | none => rfl
  | none =>
    cases count with
    | some n =>
      by_cases hn : n ≠ 0
      · simp only [if_pos hn]
        exact applyApprovals_fst_map_position _ _ _ _ 0 st
      · simp only [if_neg hn]
    | none => rfl

/-- C5: a successful `join` appends a single entry whose position is the
count of entries existing at insertion time plus one, leaving the rest of
the store untouched, and no other core operation (`approve`, `reject`,
`bulkApprove`, the registration completion step) ever changes any entry's
position; hence three sequential joins on an empty store yield positions
1, 2, 3 (witness). -/
theorem position_assignment :
    (∀ (o : Options) (now newId : Nat) (code email : String)
        (rb md : Option String) (st st1 : Store) (en : Entry),
      joinWaitlist o now newId code email rb md st = .ok (st1, en) →
      en.position = some (st.length + 1) ∧ st1 = st ++ [en]) ∧
    (∀ (o : Options) (now : Nat) (code email : String) (st : Store),
      (afterStore st (approveEntry o now code email st)).map (fun e => e.position)
        = st.map (fun e => e.position)) ∧
    (∀ (now : Nat) (email : String) (st : Store),
      (afterStore st (rejectEntry now email st)).map (fun e => e.position)
        = st.map (fun e => e.position)) ∧
    (∀ (now : Nat) (email : String) (st : Store),
      (markRegistered now email st).map (fun e => e.position)
        = st.map (fun e => e.position)) ∧
    (∀ (o : Options) (now : Nat) (codes : Nat → String)
        (emails : Option (List String)) (count : Option Nat) (st : Store),
      (bulkApprove o now codes emails count st).1.map (fun e => e.position)
        = st.map (fun e => e.position)) := by
  refine ⟨?_, ?_, ?_, ?_, bulkApprove_fst_map_position⟩
  · intro o now newId code email rb md st st1 en h1
    cases hf : findByEmail st (toLowerCase email) with
    | some x => simp [joinWaitlist, hf] at h1
    | none =>
      simp only [joinWaitlist, hf] at h1
      split at h1
      · cases h1
      · obtain ⟨hst1, hen⟩ : st ++ [_] = st1 ∧ _ = en := by simpa using h1
        constructor
        · rw [← hen]
        · rw [← hst1, ← hen]
  · intro o now code email st
    cases hf : findByEmail st (toLowerCase email) with
    | none => simp [approveEntry, hf, afterStore]
    | some en =>
      by_cases hreg : en.status = .registered
      · simp [approveEntry, hf, hreg, afterStore]
      · simp only [approveEntry, hf, if_neg hreg, afterStore]
        exact updateByEmail_map_eq st (toLowerCase email) _ _ (fun x => rfl)
  · intro now email st
    cases hf : findByEmail st (toLowerCase email) with
    | none => simp [rejectEntry, hf, afterStore]
    | some en =>
      simp only [rejectEntry, hf, afterStore]
      exact updateByEmail_map_eq st (toLowerCase email) _ _ (fun x => rfl)
  · intro now email st
    cases hf : findByEmail st (toLowerCase email) with
    | none => simp [markRegistered, hf]
    | some en =>
      simp only [markRegistered, hf]
      exact updateByEmail_map_eq st (toLowerCase email) _ _ (fun x => rfl)

def w5a : Entry :=
  ⟨1, "a@x.com", .pending, none, none, some 1, none, none, none, none, none, 0, 0⟩

def w5b : Entry :=
  ⟨2, "b@x.com", .pending, none, none, some 2, none, none, none, none, none, 0, 0⟩

def w5c : Entry :=
  ⟨3, "c@x.com", .pending, none, none, some 3, none, none, none, none, none, 0, 0⟩

/-- Witness for C5: three sequential joins on an empty store produce
positions 1, 2, 3 in call order. -/
theorem position_assignment_witness :
    joinWaitlist {} 0 1 "k1" "a@x.com" none none [] = .ok ([w5a], w5a) ∧
    joinWaitlist {} 0 2 "k2" "b@x.com" none none [w5a] = .ok ([w5a, w5b], w5b) ∧
    joinWaitlist {} 0 3 "k3" "c@x.com" none none [w5a, w5b] = .ok ([w5a, w5b, w5c], w5c) ∧
    w5a.position = some (([] : Store).length + 1) ∧
    w5b.position = some ([w5a].length + 1) ∧
    w5c.position = some ([w5a, w5b].length + 1) ∧
    w5a.position = some 1 ∧ w5b.position = some 2 ∧ w5c.position = some 3 :=
  ⟨by rfl, by rfl, by rfl,
    (position_assignment.1 {} 0 1 "k1" "a@x.com" none none [] [w5a] w5a (by rfl)).1,
    (position_assignment.1 {} 0 2 "k2" "b@x.com" none none [w5a] [w5a, w5b] w5b (by rfl)).1,
    (position_assignment.1 {} 0 3 "k3" "c@x.com" none none [w5a, w5b] [w5a, w5b, w5c] w5c
      (by rfl)).1,
    by decide, by decide, by decide⟩

/-! ### C7: bulkApprove by count takes the N oldest pending entries -/

/-- The entries selected by the count branch: `findMany` with the pending
filter, position-ascending sort, and `limit: count`. -/
def selectedPending (st : Store) (n : Nat) : List Entry :=
  (pendingByPosition st).take n

/-- The composite per-entry effect of the count-branch loop: each selected
id is patched in turn. -/
def bigUpd (now ttl : Nat) (codes : Nat → String) (idx : Nat) (sel : List Entry)
    (e : Entry) : Entry :=
  match sel with
  | [] => e
  | s :: rest =>
    bigUpd now ttl codes (idx + 1) rest
      (if e.id = s.id then approvePatch now ttl (codes idx) e else e)

lemma applyApprovals_fst_eq_map (now ttl : Nat) (codes : Nat → String) :
    ∀ (sel : List Entry) (idx : Nat) (st : Store),
      (applyApprovals now ttl codes idx sel st).1
        = st.map (bigUpd now ttl codes idx sel) := by
  intro sel
  induction sel with
  | nil =>
    intro idx st
    simp [applyApprovals, bigUpd]
  | cons s rest ih =>
    intro idx st
    simp only [applyApprovals]
    rw [ih]
    unfold updateById
    rw [List.map_map]
    rfl

lemma bigUpd_id (now ttl : Nat) (codes : Nat → String) :
    ∀ (sel : List Entry) (idx : Nat) (e : Entry),
      (bigUpd now ttl codes idx sel e).id = e.id := by
  intro sel
  induction sel with
  | nil => intro idx e; rfl
  | cons s rest ih =>
    intro idx e
    simp only [bigUpd]
    rw [ih]
    by_cases h : e.id = s.id <;> simp [h]

lemma bigUpd_not_mem (now ttl : Nat) (codes : Nat → String) :
    ∀ (sel : List Entry) (idx : Nat) (e : Entry),
      e.id ∉ sel.map (fun s => s.id) →
      bigUpd now ttl codes idx sel e = e := by
  intro sel
  induction sel with
  | nil => intro idx e _; rfl
  | cons s rest ih =>
    intro idx e hmem
    simp only [List.map_cons, List.mem_cons] at hmem
    push_neg at hmem
    simp only [bigUpd, if_neg hmem.1]
    exact ih (idx + 1) e hmem.2

lemma bigUpd_mem (now ttl : Nat) (codes : Nat → String) :
    ∀ (sel : List Entry) (idx : Nat) (e : Entry),
      (sel.map (fun s => s.id)).Nodup →
      e.id ∈ sel.map (fun s => s.id) →
      ∃ c, bigUpd now ttl codes idx sel e = approvePatch now ttl c e := by
  intro sel
  induction sel with
  | nil => intro idx e _ h; cases h
  | cons s rest ih =>
    intro idx e hnd hmem
    rw [List.map_cons] at hnd hmem
    have hnd' := List.nodup_cons.mp hnd
    by_cases h : e.id = s.id
    · refine ⟨codes idx, ?_⟩
      simp only [bigUpd, if_pos h]
      apply bigUpd_not_mem
      rw [approvePatch_id, h]
      exact hnd'.1
    · have hmem' : e.id ∈ rest.map (fun s => s.id) := by
        rcases List.mem_cons.mp hmem with h1 | h1
        · exact absurd h1 h
        · exact h1
      simp only [bigUpd, if_neg h]
      exact ih (idx + 1) e hnd'.2 hmem'

/-- C7: with a positive count `n` and id-distinct entries, the count branch
of `bulkApprove` applies the composite approve effect `bigUpd` over exactly
the selection `selectedPending st n`: the selected entries are pending
entries of the store, there are `min n #pending` of them, every pending
entry left unselected has position at least that of every selected entry
(they are the oldest), unselected entries are left completely unchanged,
and each selected entry receives the approve patch (status `approved`,
fresh code, expiry, `approvedAt`). -/
theorem bulkApprove_count_oldest_pending (o : Options) (now n : Nat)
    (codes : Nat → String) (st : Store)
    (hn : n ≠ 0)
    (hnd : (st.map (fun e => e.id)).Nodup) :
    ((bulkApprove o now codes none (some n) st).1
        = st.map (bigUpd now ((o.inviteCodeExpiration.getD 172800) * 1000) codes 0
            (selectedPending st n))) ∧
    (∀ s ∈ selectedPending st n, s ∈ st ∧ s.status = .pending) ∧
    ((selectedPending st n).length
        = min n (st.filter (fun e => decide (e.status = .pending))).length) ∧
    (∀ s ∈ selectedPending st n, ∀ p ∈ st, p.status = .pending →
      p ∉ selectedPending st n → posLE s p) ∧
    (∀ e, e.id ∉ (selectedPending st n).map (fun s => s.id) →
      bigUpd now ((o.inviteCodeExpiration.getD 172800) * 1000) codes 0
        (selectedPending st n) e = e) ∧
    (∀ e, e.id ∈ (selectedPending st n).map (fun s => s.id) →
      ∃ c, bigUpd now ((o.inviteCodeExpiration.getD 172800) * 1000) codes 0
        (selectedPending st n) e = approvePatch now ((o.inviteCodeExpiration.getD 172800) * 1000) c e) ∧
    (∀ e ∈ st, e.id ∈ (selectedPending st n).map (fun s => s.id) →
      e ∈ selectedPending st n) := by
  have hperm : List.Perm (pendingByPosition st)
      (st.filter (fun e => decide (e.status = .pending))) :=
    List.perm_insertionSort posLE _
  have hselmem : ∀ s ∈ selectedPending st n, s ∈ st ∧ s.status = .pending := by
    intro s hs
    have h1 : s ∈ pendingByPosition st := List.mem_of_mem_take hs
    have h2 : s ∈ st.filter (fun e => decide (e.status = .pending)) :=
      hperm.mem_iff.mp h1
    have h3 := List.mem_filter.mp h2
    exact ⟨h3.1, of_decide_eq_true h3.2⟩
  have hselnd : ((selectedPending st n).map (fun s => s.id)).Nodup := by
    have hfilter : ((st.filter (fun e => decide (e.status = .pending))).map
        (fun e => e.id)).Nodup :=
      hnd.sublist ((List.filter_sublist st).map (fun e => e.id))
    have hsorted : ((pendingByPosition st).map (fun e => e.id)).Nodup :=
      ((hperm.map (fun e => e.id)).nodup_iff).mpr hfilter
    have : List.Sublist ((selectedPending st n).map (fun s => s.id))
        ((pendingByPosition st).map (fun e => e.id)) :=
      (List.take_sublist n (pendingByPosition st)).map (fun s => s.id)
    exact hsorted.sublist this
  refine ⟨?_, hselmem, ?_, ?_, ?_, ?_, ?_⟩
  · simp only [bulkApprove, if_pos hn]
    exact applyApprovals_fst_eq_map _ _ _ _ 0 st
  · unfold selectedPending
    rw [List.length_take, hperm.length_eq]
  · intro s hs p hp hpend hpnot
    have hpf : p ∈ st.filter (fun e => decide (e.status = .pending)) :=
      List.mem_filter.mpr ⟨hp, decide_eq_true hpend⟩
    have hps : p ∈ pendingByPosition st := hperm.mem_iff.mpr hpf
    have hsplit : p ∈ (pendingByPosition st).take n ∨ p ∈ (pendingByPosition st).drop n := by
      rw [← List.take_append_drop n (pendingByPosition st)] at hps
      exact List.mem_append.mp hps
    have hpd : p ∈ (pendingByPosition st).drop n := by
      rcases hsplit with h | h
      · exact absurd h hpnot
      · exact h
    exact (List.sorted_insertionSort posLE _).rel_of_mem_take_of_mem_drop hs hpd
  · intro e he
    exact bigUpd_not_mem _ _ _ _ 0 e he
  · intro e he
    exact bigUpd_mem _ _ _ _ 0 e hselnd he
  · intro e he hid
    rcases List.mem_map.mp hid with ⟨s, hs, hsid⟩
    have hseq : e = s :=
      List.inj_on_of_nodup_map hnd he (hselmem s hs).1 hsid.symm
    rw [hseq]
    exact hs

def c7a : Entry :=
  ⟨1, "a@x.com", .pending, none, none, some 1, none, none, none, none, none, 0, 0⟩

def c7b : Entry :=
  ⟨2, "b@x.com", .pending, none, none, some 2, none, none, none, none, none, 0, 0⟩

def c7c : Entry :=
  ⟨3, "c@x.com", .pending, none, none, some 3, none, none, none, none, none, 0, 0⟩

def c7d : Entry :=
  ⟨4, "d@x.com", .pending, none, none, some 4, none, none, none, none, none, 0, 0⟩

def c7Store : Store := [c7a, c7b, c7c, c7d]

/-- Witness for C7: four pending entries at positions 1..4 and count 2 —
exactly positions 1 and 2 become `approved`, 3 and 4 remain `pending`. -/
theorem bulkApprove_count_oldest_pending_witness :
    (2 : Nat) ≠ 0 ∧
    (c7Store.map (fun e => e.id)).Nodup ∧
    (bulkApprove {} 9 (fun _ => "K") none (some 2) c7Store).1
      = c7Store.map (bigUpd 9 172800000 (fun _ => "K") 0 (selectedPending c7Store 2)) ∧
    (bulkApprove {} 9 (fun _ => "K") none (some 2) c7Store).1.map
        (fun e => (e.position, e.status))
      = [(some 1, .approved), (some 2, .approved), (some 3, .pending), (some 4, .pending)] :=
  ⟨by decide, by decide,
    (bulkApprove_count_oldest_pending {} 9 2 (fun _ => "K") c7Store (by decide) (by decide)).1,
    by decide⟩

/-! ### C1: the status transition set -/

def c1Rejected : Entry :=
  ⟨1, "a@x.com", .rejected, none, none, some 1, none, none, none, some 0, none, 0, 0⟩

def c1Approved : Entry :=
  ⟨1, "b@x.com", .approved, some "C", none, some 1, none, none, some 0, none, none, 0, 0⟩

def c1Registered : Entry :=
  ⟨1, "c@x.com", .registered, some "C", none, some 1, none, none, some 0, none, some 0, 0, 0⟩

/-- C1 counterexample: the transitions the claim forbids do happen.
`approve` on a `rejected` entry yields `approved` (rejected → approved),
and `reject` — which has no status precondition — turns an `approved`
entry and even a `registered` entry into `rejected` (approved → rejected,
registered → rejected). -/
theorem transition_monotonic_counterexample :
    [c1Rejected].map (fun e => e.status) = [.rejected] ∧
    (applyOp {} (.approve 5 "u1" "a@x.com") [c1Rejected]).map (fun e => e.status)
      = [.approved] ∧
    [c1Approved].map (fun e => e.status) = [.approved] ∧
    (applyOp {} (.reject 6 "b@x.com") [c1Approved]).map (fun e => e.status)
      = [.rejected] ∧
    [c1Registered].map (fun e => e.status) = [.registered] ∧
    (applyOp {} (.reject 7 "c@x.com") [c1Registered]).map (fun e => e.status)
      = [.rejected] := by
  refine ⟨by decide, by decide, by decide, by decide, by decide, by decide⟩

lemma same_status_guarantee (s : WStatus) :
    (s = .registered → s ≠ .approved) ∧ (s = .pending → s = .pending) := by
  constructor
  · intro h
    rw [h]
    intro hc
    cases hc
  · intro h
    exact h

lemma statusEvo_trans {a b c : WStatus}
    (h1 : b = a ∨ (a = .pending ∧ b = .approved))
    (h2 : c = b ∨ (b = .pending ∧ c = .approved)) :
    c = a ∨ (a = .pending ∧ c = .approved) := by
  rcases h1 with h1 | ⟨h1a, h1b⟩
  · rcases h2 with h2 | ⟨h2a, h2b⟩
    · left; rw [h2, h1]
    · right; exact ⟨h1 ▸ h2a, h2b⟩
  · rcases h2 with h2 | ⟨h2a, h2b⟩
    · right; exact ⟨h1a, h2 ▸ h1b⟩
    · rw [h1b] at h2a; cases h2a

/-- Every entry of the store produced by the per-email loop of
`bulkApprove` descends from an entry of the input store with the same id
and email, either unchanged or approved from `pending`. -/
lemma bulkByEmails_statusEvo (now ttl : Nat) (codes : Nat → String) :
    ∀ (emails : List String) (idx : Nat) (st : Store),
      (∀ x ∈ st, ∀ y ∈ st, x.email = y.email → x = y) →
      ∀ e1 ∈ (bulkByEmails now ttl codes idx emails st).1,
        ∃ e ∈ st, e1.id = e.id ∧ e1.email = e.email ∧
          (e1.status = e.status ∨ (e.status = .pending ∧ e1.status = .approved)) := by
  intro emails
  induction emails with
  | nil =>
    intro idx st _ e1 he1
    exact ⟨e1, he1, rfl, rfl, Or.inl rfl⟩
  | cons email rest ih =>
    intro idx st hem e1 he1
    cases hf : findByEmail st (toLowerCase email) with
    | none =>
      simp only [bulkByEmails, hf] at he1
      exact ih idx st hem e1 he1
    | some en =>
      have hdc := findByEmail_some hf
      by_cases hp : en.status = .pending
      · simp only [bulkByEmails, hf, if_pos hp] at he1
        have hem1 : ∀ x1 ∈ updateByEmail st (toLowerCase email)
              (approvePatch now ttl (codes idx)),
            ∀ y1 ∈ updateByEmail st (toLowerCase email)
              (approvePatch now ttl (codes idx)),
            x1.email = y1.email → x1 = y1 := by
          intro x1 hx1 y1 hy1 hxy
          rcases List.mem_map.mp hx1 with ⟨x, hx, hxeq⟩
          rcases List.mem_map.mp hy1 with ⟨y, hy, hyeq⟩
          have hx1e : x1.email = x.email := by
            rw [← hxeq]; by_cases h : x.email = toLowerCase email <;> simp [h]
          have hy1e : y1.email = y.email := by
            rw [← hyeq]; by_cases h : y.email = toLowerCase email <;> simp [h]
          have : x = y := hem x hx y hy (by rw [← hx1e, ← hy1e, hxy])
          rw [← hxeq, ← hyeq, this]
        rcases ih (idx + 1) _ hem1 e1 he1 with ⟨e', he', hid, hemail, hstat⟩
        rcases List.mem_map.mp he' with ⟨e, he, heeq⟩
        by_cases hmatch : e.email = toLowerCase email
        · have hee : e = en := hem e he en hdc.1 (by rw [hmatch, hdc.2])
          rw [if_pos hmatch] at heeq
          refine ⟨e, he, ?_, ?_, ?_⟩
          · rw [hid, ← heeq]
            rfl
          · rw [hemail, ← heeq]
            rfl
          · have hmid : e'.status = e.status ∨
                (e.status = .pending ∧ e'.status = .approved) := by
              right
              rw [← heeq]
              exact ⟨hee ▸ hp, rfl⟩
            exact statusEvo_trans hmid hstat
        · rw [if_neg hmatch] at heeq
          exact ⟨e, he, by rw [hid, ← heeq], by rw [hemail, ← heeq],
            by rw [← heeq] at hstat; exact hstat⟩
      · simp only [bulkByEmails, hf, if_neg hp] at he1
        exact ih idx st hem e1 he1

lemma bigUpd_status (now ttl : Nat) (codes : Nat → String) :
    ∀ (sel : List Entry) (idx : Nat) (e : Entry),
      (bigUpd now ttl codes idx sel e).status = e.status ∨
      (bigUpd now ttl codes idx sel e).status = .approved := by
  intro sel
  induction sel with
  | nil => intro idx e; left; rfl
  | cons s rest ih =>
    intro idx e
    simp only [bigUpd]
    by_cases h : e.id = s.id
    · rw [if_pos h]
      rcases ih (idx + 1) (approvePatch now ttl (codes idx) e) with h1 | h1
      · right; rw [h1]; rfl
      · right; exact h1
    · rw [if_neg h]
      exact ih (idx + 1) e

lemma join_afterStore (o : Options) (now newId : Nat) (code email : String)
    (rb md : Option String) (st : Store) :
    afterStore st (joinWaitlist o now newId code email rb md st) = st ∨
    ∃ en, afterStore st (joinWaitlist o now newId code email rb md st) = st ++ [en] ∧
      en.id = newId := by
  cases hf : findByEmail st (toLowerCase email) with
  | some x => left; simp [joinWaitlist, hf, afterStore]
  | none =>
    simp only [joinWaitlist, hf]
    split
    · left; rfl
    · right; exact ⟨_, rfl, rfl⟩

/-- C1 amended: what the code actually guarantees about status
transitions. For every core operation (`join`, `approve`, `reject`,
`bulkApprove`, `markRegistered`), an existing entry is never moved from
`registered` to `approved` (approve refuses with `ALREADY_REGISTERED` and
bulkApprove only touches `pending` entries), and no existing entry is ever
moved back to `pending` (an entry is `pending` only from creation).  The
claim's further prohibitions do not hold (see the counterexample):
`approve` moves `rejected` entries to `approved`, `reject` — having no
status precondition — moves `approved` and even `registered` entries to
`rejected`, and the completion step moves any existing entry to
`registered`. -/
theorem core_transitions_guarantee (o : Options) (op : CoreOp) (st : Store)
    (hinj : ∀ x ∈ st, ∀ y ∈ st, x.id = y.id → x = y)
    (hem : ∀ x ∈ st, ∀ y ∈ st, x.email = y.email → x = y)
    (hfresh : ∀ now newId code email rb md,
      op = CoreOp.join now newId code email rb md → ∀ x ∈ st, x.id ≠ newId) :
    ∀ e ∈ st, ∀ e1 ∈ applyOp o op st, e1.id = e.id →
      (e.status = .registered → e1.status ≠ .approved) ∧
      (e1.status = .pending → e.status = .pending) := by
  intro e he e1 he1 hid
  cases op with
  | join now newId code email rb md =>
    rcases join_afterStore o now newId code email rb md st with hsame | ⟨en, happ, henid⟩
    · rw [show applyOp o (.join now newId code email rb md) st
          = afterStore st (joinWaitlist o now newId code email rb md st) from rfl,
        hsame] at he1
      have : e1 = e := hinj e1 he1 e he hid
      rw [this]
      exact same_status_guarantee e.status
    · rw [show applyOp o (.join now newId code email rb md) st
          = afterStore st (joinWaitlist o now newId code email rb md st) from rfl,
        happ] at he1
      rcases List.mem_append.mp he1 with h1 | h1
      · have : e1 = e := hinj e1 h1 e he hid
        rw [this]
        exact same_status_guarantee e.status
      · have : e1 = en := List.mem_singleton.mp h1
        exfalso
        exact hfresh now newId code email rb md rfl e he (by rw [← hid, this, henid])
  | approve now code email =>
    cases hf : findByEmail st (toLowerCase email) with
    | none =>
      rw [show applyOp o (.approve now code email) st
          = afterStore st (approveEntry o now code email st) from rfl] at he1
      simp only [approveEntry, hf, afterStore] at he1
      have : e1 = e := hinj e1 he1 e he hid
      rw [this]
      exact same_status_guarantee e.status
    | some en =>
      have hdc := findByEmail_some hf
      by_cases hreg : en.status = .registered
      · rw [show applyOp o (.approve now code email) st
            = afterStore st (approveEntry o now code email st) from rfl] at he1
        simp only [approveEntry, hf, if_pos hreg, afterStore] at he1
        have : e1 = e := hinj e1 he1 e he hid
        rw [this]
        exact same_status_guarantee e.status
      · rw [show applyOp o (.approve now code email) st
            = afterStore st (approveEntry o now code email st) from rfl] at he1
        simp only [approveEntry, hf, if_neg hreg, afterStore] at he1
        rcases List.mem_map.mp he1 with ⟨y, hy, hyeq⟩
        have hyid : y.id = e.id := by
          rw [← hid, ← hyeq]
          by_cases h : y.email = toLowerCase email <;> simp [h]
        have hye : y = e := hinj y hy e he hyid
        by_cases hmatch : y.email = toLowerCase email
        · have hyen : y = en := hem y hy en hdc.1 (by rw [hmatch, hdc.2])
          rw [if_pos hmatch] at hyeq
          constructor
          · intro hr
            exfalso
            rw [← hye] at hr
            rw [hyen] at hr
            exact hreg hr
          · intro hp
            exfalso
            rw [← hyeq] at hp
            cases hp
        · rw [if_neg hmatch] at hyeq
          rw [← hyeq, hye]
          exact same_status_guarantee e.status
  | reject now email =>
    cases hf : findByEmail st (toLowerCase email) with
    | none =>
      rw [show applyOp o (.reject now email) st
          = afterStore st (rejectEntry now email st) from rfl] at he1
      simp only [rejectEntry, hf, afterStore] at he1
      have : e1 = e := hinj e1 he1 e he hid
      rw [this]
      exact same_status_guarantee e.status
    | some en =>
      rw [show applyOp o (.reject now email) st
          = afterStore st (rejectEntry now email st) from rfl] at he1
      simp only [rejectEntry, hf, afterStore] at he1
      rcases List.mem_map.mp he1 with ⟨y, hy, hyeq⟩
      by_cases hmatch : y.email = toLowerCase email
      · rw [if_pos hmatch] at hyeq
        constructor
        · intro _
          rw [← hyeq]
          intro hc
          cases hc
        · intro hp
          exfalso
          rw [← hyeq] at hp
          cases hp
      · rw [if_neg hmatch] at hyeq
        have : y = e := hinj y hy e he (by rw [← hid, ← hyeq])
        rw [← hyeq, this]
        exact same_status_guarantee e.status
  | markReg now email =>
    cases hf : findByEmail st (toLowerCase email) with
    | none =>
      rw [show applyOp o (.markReg now email) st = markRegistered now email st from rfl] at he1
      simp only [markRegistered, hf] at he1
      have : e1 = e := hinj e1 he1 e he hid
      rw [this]
      exact same_status_guarantee e.status
    | some en =>
      rw [show applyOp o (.markReg now email) st = markRegistered now email st from rfl] at he1
      simp only [markRegistered, hf] at he1
      rcases List.mem_map.mp he1 with ⟨y, hy, hyeq⟩
      by_cases hmatch : y.email = toLowerCase email
      · rw [if_pos hmatch] at hyeq
        constructor
        · intro _
          rw [← hyeq]
          intro hc
          cases hc
        · intro hp
          exfalso
          rw [← hyeq] at hp
          cases hp
      · rw [if_neg hmatch] at hyeq
        have : y = e := hinj y hy e he (by rw [← hid, ← hyeq])
        rw [← hyeq, this]
        exact same_status_guarantee e.status
  | bulk now codes emails count =>
    have hbulk : applyOp o (.bulk now codes emails count) st
        = (bulkApprove o now codes emails count st).1 := rfl
    rw [hbulk] at he1
    have hcount : ∀ n, n ≠ 0 →
        e1 ∈ (applyApprovals now ((o.inviteCodeExpiration.getD 172800) * 1000) codes 0
          ((pendingByPosition st).take n) st).1 →
        (e.status = .registered → e1.status ≠ .approved) ∧
        (e1.status = .pending → e.status = .pending) := by
      intro n hn hmem
      rw [applyApprovals_fst_eq_map] at hmem
      rcases List.mem_map.mp hmem with ⟨y, hy, hyeq⟩
      have hyid : y.id = e.id := by rw [← hid, ← hyeq, bigUpd_id]
      have hye : y = e := hinj y hy e he hyid
      subst hye
      by_cases hsel : y.id ∈ ((pendingByPosition st).take n).map (fun s => s.id)
      · rcases List.mem_map.mp hsel with ⟨s, hs, hsid⟩
        have hsmem : s ∈ st ∧ s.status = .pending := by
          have h1 : s ∈ pendingByPosition st := List.mem_of_mem_take hs
          have h2 := (List.perm_insertionSort posLE
            (st.filter (fun e => decide (e.status = .pending)))).mem_iff.mp h1
          have h3 := List.mem_filter.mp h2
          exact ⟨h3.1, of_decide_eq_true h3.2⟩
        have hys : y = s := hinj y hy s hsmem.1 hsid.symm
        constructor
        · intro hr
          exfalso
          rw [hys] at hr
          rw [hsmem.2] at hr
          cases hr
        · intro hp
          rw [hys]
          exact hsmem.2
      · rw [bigUpd_not_mem _ _ _ _ _ _ hsel] at hyeq
        rw [← hyeq]
        exact same_status_guarantee y.status
    cases emails with
    | some es =>
      by_cases hne : es ≠ []
      · simp only [bulkApprove, if_pos hne] at he1
        rcases bulkByEmails_statusEvo now _ codes es 0 st hem e1 he1 with
          ⟨e', he', hid', _, hstat⟩
        have : e' = e := hinj e' he' e he (by rw [← hid, hid'])
        subst this
        constructor
        · intro hr
          rcases hstat with h | ⟨h1, _⟩
          · rw [h, hr]; intro hc; cases hc
          · rw [hr] at h1; cases h1
        · intro hp
          rcases hstat with h | ⟨h1, h2⟩
          · rw [← h, hp]
          · exact h1
      · simp only [bulkApprove, if_neg hne] at he1
        cases count with
        | some n =>
          by_cases hn : n ≠ 0
          · simp only [if_pos hn] at he1
            exact hcount n hn he1
          · simp only [if_neg hn] at he1
            have : e1 = e := hinj e1 he1 e he hid
            rw [this]
            exact same_status_guarantee e.status
        | none =>
          have : e1 = e := hinj e1 he1 e he hid
          rw [this]
          exact same_status_guarantee e.status
    | none =>
      cases count with
      | some n =>
        by_cases hn : n ≠ 0
        · simp only [bulkApprove, if_pos hn] at he1
          exact hcount n hn he1
        · simp only [bulkApprove, if_neg hn] at he1
          have : e1 = e := hinj e1 he1 e he hid
          rw [this]
          exact same_status_guarantee e.status
      | none =>
        simp only [bulkApprove] at he1
        have : e1 = e := hinj e1 he1 e he hid
        rw [this]
        exact same_status_guarantee e.status

/-- Witness for the amended C1 at a concrete operation: `approve` on a
store holding one `rejected` entry (the counterexample scenario) respects
the amended guarantee. -/
theorem core_transitions_guarantee_witness :
    [c1Rejected].map (fun e => e.status) = [.rejected] ∧
    ∀ e ∈ [c1Rejected], ∀ e1 ∈ applyOp {} (.approve 5 "u1" "a@x.com") [c1Rejected],
      e1.id = e.id →
      (e.status = .registered → e1.status ≠ .approved) ∧
      (e1.status = .pending → e.status = .pending) :=
  ⟨by decide,
    core_transitions_guarantee {} (.approve 5 "u1" "a@x.com") [c1Rejected]
      (by decide) (by decide)
      (by intro now newId code email rb md h; cases h)⟩

end Waitlist
